import Mathlib

/-!
Verification of the field-extraction engine of `append_from_pdf.py`.

The raw document text is modelled as a list of characters (`RawText`).
Each Python regular-expression strategy is embedded as an executable
positional matcher over that list; greedy/lazy quantifiers and
backtracking are resolved into explicit bounded searches that follow the
behaviour of the `re` engine on the concrete patterns of the source
(maximal-munch where the follow set is disjoint, explicit descending /
ascending length loops where backtracking matters).  Character classes
are the ASCII behaviour of the Python patterns; Python floats are
modelled as exact rationals.
-/

abbrev RawText := List Char

/-- Character at position `i`, if any. -/
def charAt (t : RawText) (i : Nat) : Option Char := t.get? i

/-- Python slice `t[a:b]` (clamping, empty when `b ≤ a`). -/
def sliceT (t : RawText) (a b : Nat) : RawText := (t.drop a).take (b - a)

/-- Python `\w` on ASCII text: letters, digits, underscore. -/
def isWordC (c : Char) : Bool := c.isAlphanum || c == '_'

/-- Python `\s` on ASCII text. -/
def isSpaceC (c : Char) : Bool :=
  c == ' ' || c == '\t' || c == '\n' || c == '\r' || c == '\x0b' || c == '\x0c'

def isWordAt (t : RawText) (i : Nat) : Bool :=
  match charAt t i with
  | some c => isWordC c
  | none => false

def prevIsWord (t : RawText) (i : Nat) : Bool :=
  match i with
  | 0 => false
  | j + 1 => isWordAt t j

/-- Python `\b` between positions `i-1` and `i`. -/
def boundaryAt (t : RawText) (i : Nat) : Bool := prevIsWord t i != isWordAt t i

/-- Length of the maximal run of characters satisfying `p` starting at `i`
(the greedy extent of a character class). -/
def runLen (p : Char → Bool) (t : RawText) (i : Nat) : Nat :=
  ((t.drop i).takeWhile p).length

/-- Literal (case-sensitive) match of `pat` against the front of `u`. -/
def litFrom : RawText → RawText → Bool
  | _, [] => true
  | [], _ :: _ => false
  | c :: cs, p :: ps => c == p && litFrom cs ps

def matchLit (t : RawText) (i : Nat) (pat : RawText) : Bool := litFrom (t.drop i) pat

/-- Case-insensitive literal match (Python `re.IGNORECASE`, ASCII). -/
def ciFrom : RawText → RawText → Bool
  | _, [] => true
  | [], _ :: _ => false
  | c :: cs, p :: ps => c.toLower == p.toLower && ciFrom cs ps

def matchCIAt (t : RawText) (i : Nat) (pat : RawText) : Bool := ciFrom (t.drop i) pat

/-- Leftmost-match driver of `re.search`: try start positions `i`,
`i+1`, … (`fuel` of them) and return the first success. -/
def scanFirst (f : Nat → Option α) : Nat → Nat → Option α
  | 0, _ => none
  | fuel + 1, i =>
    match f i with
    | some a => some a
    | none => scanFirst f fuel (i + 1)

/-- Non-overlapping match collection of `re.findall` / `re.finditer`:
`f i` yields the end position of a match starting at `i`; scanning
resumes at the end of each match. -/
def scanAll (f : Nat → Option Nat) : Nat → Nat → List (Nat × Nat)
  | 0, _ => []
  | fuel + 1, i =>
    match f i with
    | some j => (i, j) :: scanAll f fuel j
    | none => scanAll f fuel (i + 1)

/-- Greedy backtracking over a quantifier: try lengths `L`, `L-1`, …
(`fuel` of them), first success wins. -/
def tryDesc (f : Nat → Option α) : Nat → Nat → Option α
  | 0, _ => none
  | fuel + 1, L =>
    match f L with
    | some a => some a
    | none => tryDesc f fuel (L - 1)

/-- First success of `f` over a list, in order. -/
def firstSomeList (f : α → Option β) : List α → Option β
  | [] => none
  | x :: xs =>
    match f x with
    | some b => some b
    | none => firstSomeList f xs

/-- Python length-descending stable sort followed by taking the head:
the earliest candidate of maximal length. -/
def chooseLongest (l : List RawText) : Option RawText :=
  l.foldl (fun best c =>
    match best with
    | none => some c
    | some b => if b.length < c.length then some c else some b) none

/-- Decimal value of a digit string. -/
def natOfDigits (u : RawText) : Nat :=
  u.foldl (fun n c => n * 10 + (c.toNat - 48)) 0

/-- Python `float(...)` on strings drawn from the `[\d\.,]` classes after
`,`-removal: digits with at most one dot, at least one digit; exact
rational value. -/
def parseDec (u : RawText) : Option ℚ :=
  let a := u.takeWhile (fun c => c != '.')
  let b := u.dropWhile (fun c => c != '.')
  match b with
  | [] =>
    if !a.isEmpty && a.all Char.isDigit then some ((natOfDigits a : ℕ) : ℚ) else none
  | _ :: b' =>
    if b'.all (fun c => c != '.') && a.all Char.isDigit && b'.all Char.isDigit &&
        (!a.isEmpty || !b'.isEmpty) then
      some (mkRat ((natOfDigits a * 10 ^ b'.length + natOfDigits b' : ℕ) : ℤ)
        (10 ^ b'.length))
    else none

/-- Addition of rationals, computed on the integer pairs (the value is
ordinary rational addition, see `qAdd_eq`); Python float addition on
the exactly representable values of this program. -/
def qAdd (a b : ℚ) : ℚ :=
  mkRat (a.num * (b.den : ℤ) + b.num * (a.den : ℤ)) (a.den * b.den)

/-- Round half to even of `q * 10^d`, as Python float formatting does
on exact values, computed on the integer pair of the rational:
`r2 = 2·10^d·(fractional part)·den` is compared against `den`. -/
def scaleRound (d : Nat) (q : ℚ) : ℤ :=
  let n := q.num * ((10 ^ d : ℕ) : ℤ)
  let den := (q.den : ℤ)
  let f := n.fdiv den
  let r2 := 2 * (n - f * den)
  if r2 < den then f
  else if den < r2 then f + 1
  else if f % 2 == 0 then f else f + 1

def natDigitsAux : Nat → Nat → RawText
  | 0, _ => []
  | _ + 1, 0 => []
  | fuel + 1, n => natDigitsAux fuel (n / 10) ++ [Char.ofNat (48 + n % 10)]

def natDigitsT (n : Nat) : RawText :=
  if n == 0 then ['0'] else natDigitsAux (n + 1) n

def padZeros (d : Nat) (u : RawText) : RawText :=
  List.replicate (d - u.length) '0' ++ u

/-- Python `f"{x:.df}"` for `d` fractional digits. -/
def formatFixed (d : Nat) (q : ℚ) : RawText :=
  let n := scaleRound d q
  let m := n.natAbs
  let core := natDigitsT (m / 10 ^ d) ++ '.' :: padZeros d (natDigitsT (m % 10 ^ d))
  if n < 0 then '-' :: core else core

/-- Python `"\n".join(...)`. -/
def joinNL : List RawText → RawText
  | [] => []
  | [x] => x
  | x :: xs => x ++ '\n' :: joinNL xs

/-- Python `str.split("\n")`. -/
def splitNL : RawText → List RawText
  | [] => [[]]
  | c :: rest =>
    if c = '\n' then [] :: splitNL rest
    else
      match splitNL rest with
      | [] => [[c]]
      | s :: ss => (c :: s) :: ss

def wordsAux : Nat → RawText → List RawText
  | 0, _ => []
  | fuel + 1, u =>
    match u with
    | [] => []
    | c :: rest =>
      if isSpaceC c then wordsAux fuel rest
      else (u.takeWhile (fun d => !isSpaceC d)) ::
        wordsAux fuel (u.dropWhile (fun d => !isSpaceC d))

/-- Python `str.split()` (split on whitespace runs, no empty parts). -/
def wordsOf (u : RawText) : List RawText := wordsAux (u.length + 1) u

/-- Python `" ".join(...)`. -/
def joinWords : List RawText → RawText
  | [] => []
  | [w] => w
  | w :: ws => w ++ ' ' :: joinWords ws

/-- Python `str.strip()`. -/
def stripWs (u : RawText) : RawText :=
  ((u.dropWhile isSpaceC).reverse.dropWhile isSpaceC).reverse

/-- Python string comparison (code-point lexicographic), used by
`sorted`. -/
def ltb : RawText → RawText → Bool
  | [], [] => false
  | [], _ :: _ => true
  | _ :: _, [] => false
  | a :: as, b :: bs =>
    if a.toNat < b.toNat then true
    else if b.toNat < a.toNat then false
    else ltb as bs

def ltT (a b : RawText) : Prop := ltb a b = true

instance (a b : RawText) : Decidable (ltT a b) := by
  unfold ltT; infer_instance

/-- Insert into a strictly sorted list, dropping duplicates. -/
def insSorted (x : RawText) : List RawText → List RawText
  | [] => [x]
  | y :: ys =>
    if ltT x y then x :: y :: ys
    else if x = y then y :: ys
    else y :: insSorted x ys

/-- Python `sorted(set(l))`: the strictly ascending enumeration of the
distinct elements of `l`. -/
def sortedDedup (l : List RawText) : List RawText := l.foldr insSorted []

/-! ### Invoice number parser (`parse_invoice_number`) -/

/-- Tail of the strict invoice pattern from position `p` (just after the
`(?:^|\n)` anchor): `\s*Invoice\s+(\d{6,})\b`, case-insensitive. -/
def invAfterAnchor (t : RawText) (p : Nat) : Option RawText :=
  let q := p + runLen isSpaceC t p
  if matchCIAt t q ("Invoice".toList) then
    let r := q + 7
    let w := runLen isSpaceC t r
    if w == 0 then none
    else
      let d := runLen Char.isDigit t (r + w)
      if 6 ≤ d && !(isWordAt t (r + w + d)) then some (sliceT t (r + w) (r + w + d))
      else none
  else none

/-- One `re.search` start position for the strict invoice pattern:
the `^` branch at 0, or a consumed `\n` at `s`. -/
def invAttempt (t : RawText) (s : Nat) : Option RawText :=
  match (if s == 0 then invAfterAnchor t 0 else none) with
  | some r => some r
  | none => if charAt t s == some '\n' then invAfterAnchor t (s + 1) else none

def invoiceStrict (t : RawText) : Option RawText :=
  scanFirst (invAttempt t) (t.length + 1) 0

/-- Fallback invoice pattern `Invoice\s*[:#]?\s*(\d{6,})\b` anywhere. -/
def invFallAt (t : RawText) (s : Nat) : Option RawText :=
  if matchCIAt t s ("Invoice".toList) then
    let p := s + 7
    let p := p + runLen isSpaceC t p
    let p := if charAt t p == some ':' || charAt t p == some '#' then p + 1 else p
    let p := p + runLen isSpaceC t p
    let d := runLen Char.isDigit t p
    if 6 ≤ d && !(isWordAt t (p + d)) then some (sliceT t p (p + d)) else none
  else none

def invoiceFall (t : RawText) : Option RawText :=
  scanFirst (invFallAt t) (t.length + 1) 0

def parse_invoice_number (t : RawText) : RawText :=
  match invoiceStrict t with
  | some r => r
  | none =>
    match invoiceFall t with
    | some r => r
    | none => []

/-! ### Customer order parser (`parse_customer_order`) -/

def isOrdClass (c : Char) : Bool := c.isAlphanum || c == '-' || c == '/'

def digitsExact (t : RawText) (i n : Nat) : Bool :=
  ((t.drop i).take n).all Char.isDigit && ((t.drop i).take n).length == n

/-- Match of `\bCE-\d{4}-\d{2}\b` at position `i` (case-sensitive). -/
def ceAt (t : RawText) (i : Nat) : Bool :=
  !(prevIsWord t i) && matchLit t i ("CE-".toList) && digitsExact t (i + 3) 4 &&
    charAt t (i + 7) == some '-' && digitsExact t (i + 8) 2 && !(isWordAt t (i + 10))

def ceSearch (t : RawText) : Option RawText :=
  scanFirst (fun i => if ceAt t i then some (sliceT t i (i + 10)) else none)
    (t.length + 1) 0

/-- Label capture `Customer\s+Order\s+Number\s*[:#]?\s*([A-Za-z0-9\-\/]+)`
(case-insensitive) at start position `s`. -/
def custAt (t : RawText) (s : Nat) : Option RawText :=
  if matchCIAt t s ("Customer".toList) then
    let p := s + 8
    let w1 := runLen isSpaceC t p
    if w1 == 0 then none
    else if matchCIAt t (p + w1) ("Order".toList) then
      let p := p + w1 + 5
      let w2 := runLen isSpaceC t p
      if w2 == 0 then none
      else if matchCIAt t (p + w2) ("Number".toList) then
        let p := p + w2 + 6
        let p := p + runLen isSpaceC t p
        let p := if charAt t p == some ':' || charAt t p == some '#' then p + 1 else p
        let p := p + runLen isSpaceC t p
        let run := (t.drop p).takeWhile isOrdClass
        if run.isEmpty then none else some run
      else none
    else none
  else none

def custSearch (t : RawText) : Option RawText :=
  scanFirst (custAt t) (t.length + 1) 0

def parse_customer_order (t : RawText) : RawText :=
  match ceSearch t with
  | some v => v
  | none =>
    match custSearch t with
    | some val =>
      match ceSearch val with
      | some v2 => v2
      | none => val.takeWhile isOrdClass
    | none => []

/-- Variant of `parse_customer_order` in which the unchecked
`re.match(...).group(0)` of the source is modelled as fallible:
`none` is the `AttributeError` the Python code would raise when the
anchored class match fails. -/
def parse_customer_orderE (t : RawText) : Option RawText :=
  match ceSearch t with
  | some v => some v
  | none =>
    match custSearch t with
    | some val =>
      match ceSearch val with
      | some v2 => some v2
      | none =>
        let g := val.takeWhile isOrdClass
        if g.isEmpty then none else some g
    | none => some []

/-! ### Bill-of-lading parser (`parse_bl_number`) -/

/-- Label branch `BILL\s+OF\s+LADING\s+No\.?` (case-insensitive) at `p`;
returns the position just after the label. -/
def blLabel1 (t : RawText) (p : Nat) : Option Nat :=
  if matchCIAt t p ("BILL".toList) then
    let p := p + 4
    let w1 := runLen isSpaceC t p
    if w1 == 0 then none
    else if matchCIAt t (p + w1) ("OF".toList) then
      let p := p + w1 + 2
      let w2 := runLen isSpaceC t p
      if w2 == 0 then none
      else if matchCIAt t (p + w2) ("LADING".toList) then
        let p := p + w2 + 6
        let w3 := runLen isSpaceC t p
        if w3 == 0 then none
        else if matchCIAt t (p + w3) ("No".toList) then
          let p := p + w3 + 2
          some (if charAt t p == some '.' then p + 1 else p)
        else none
      else none
    else none
  else none

/-- Label branch `B\/?L\s*No\.?` (case-insensitive) at `p`. -/
def blLabel2 (t : RawText) (p : Nat) : Option Nat :=
  if matchCIAt t p ("B".toList) then
    let p := p + 1
    let p := if charAt t p == some '/' then p + 1 else p
    if matchCIAt t p ("L".toList) then
      let p := p + 1
      let p := p + runLen isSpaceC t p
      if matchCIAt t p ("No".toList) then
        let p := p + 2
        some (if charAt t p == some '.' then p + 1 else p)
      else none
    else none
  else none

/-- Suffix `\s*[:#]?\s*([A-Z0-9]{8,20})` after a label; with
`re.IGNORECASE` the class also matches lowercase letters. -/
def blGroupAt (t : RawText) (p : Nat) : Option RawText :=
  let p := p + runLen isSpaceC t p
  let p := if charAt t p == some ':' || charAt t p == some '#' then p + 1 else p
  let p := p + runLen isSpaceC t p
  let r := runLen Char.isAlphanum t p
  if 8 ≤ r then some (sliceT t p (p + min r 20)) else none

/-- Tail of the explicit-label tier from position `p` (after the
`(?:^|\n)` anchor): `\s*(?:BILL…|B\/?L…)\s*[:#]?\s*([A-Z0-9]{8,20})`. -/
def blTier1AfterAnchor (t : RawText) (p : Nat) : Option RawText :=
  let p := p + runLen isSpaceC t p
  match blLabel1 t p with
  | some q =>
    match blGroupAt t q with
    | some g => some g
    | none =>
      match blLabel2 t p with
      | some q2 => blGroupAt t q2
      | none => none
  | none =>
    match blLabel2 t p with
    | some q2 => blGroupAt t q2
    | none => none

def blTier1At (t : RawText) (s : Nat) : Option RawText :=
  match (if s == 0 then blTier1AfterAnchor t 0 else none) with
  | some r => some r
  | none => if charAt t s == some '\n' then blTier1AfterAnchor t (s + 1) else none

def blTier1 (t : RawText) : Option RawText :=
  scanFirst (blTier1At t) (t.length + 1) 0

/-- Candidate token `\b(?!EBKG)[A-Z]{3,6}[A-Z0-9]{6,12}\b` at `i`
(case-sensitive, as `re.findall` is called without flags); yields the
end position of the match. -/
def candAt (w : RawText) (i : Nat) : Option Nat :=
  if prevIsWord w i then none
  else if matchLit w i ("EBKG".toList) then none
  else
    let maxL := min 6 (runLen Char.isUpper w i)
    tryDesc (fun l =>
      let maxA := min 12 (runLen (fun c => c.isUpper || c.isDigit) w (i + l))
      tryDesc (fun a =>
        if 6 ≤ a && !(isWordAt w (i + l + a)) then some (i + l + a) else none)
        (maxA + 1 - 6) maxA)
      (maxL + 1 - 3) maxL

/-- Search for `BOOKING\s+REF` (case-insensitive) at `i`. -/
def bookingRefAt (u : RawText) (i : Nat) : Bool :=
  matchCIAt u i ("BOOKING".toList) &&
    (let j := i + 7
     let w := runLen isSpaceC u j
     decide (1 ≤ w) && matchCIAt u (j + w) ("REF".toList))

def hasBookingRef (u : RawText) : Bool :=
  (List.range (u.length + 1)).any (fun i => bookingRefAt u i)

/-- Python `window.find(c)`: first index of substring `c`. -/
def firstIndexOf (w c : RawText) : Nat :=
  match scanFirst (fun i => if matchLit w i c then some i else none) (w.length + 1) 0 with
  | some i => i
  | none => 0

/-- The keyword-proximity candidate selection inside one ±300 window:
collect candidates, keep those with a digit, drop those whose first
occurrence in the window has `BOOKING REF` within ±40 characters, and
pick the longest survivor (earliest on ties, Python sort stability). -/
def blWindowPick (w : RawText) : Option RawText :=
  let cands := (scanAll (candAt w) (w.length + 1) 0).map (fun ij => sliceT w ij.1 ij.2)
  let cands := cands.filter (fun c => c.any Char.isDigit)
  let filtered := cands.filter (fun c =>
    !(hasBookingRef (sliceT w (firstIndexOf w c - 40) (firstIndexOf w c + c.length + 40))))
  chooseLongest filtered

/-- Anchor-keyword occurrences (`re.finditer`, case-insensitive). -/
def kwOccs (t : RawText) (kw : RawText) : List (Nat × Nat) :=
  scanAll (fun i => if matchCIAt t i kw then some (i + kw.length) else none)
    (t.length + 1) 0

def blTier2 (t : RawText) : Option RawText :=
  firstSomeList (fun kw =>
      firstSomeList (fun se : Nat × Nat =>
          blWindowPick (sliceT t (se.1 - 300) (se.2 + 300)))
        (kwOccs t kw))
    ["BILL OF LADING".toList, "RIDER PAGE".toList, "BILL OF LADING No".toList,
      "RIDER".toList]

/-- Global fallback: first candidate token (in document order) with a
digit and no `BOOKING REF` within ±40 characters of the matched
occurrence; returns the match position together with the token. -/
def blTier3Aux (t : RawText) : Option (Nat × RawText) :=
  firstSomeList (fun ij : Nat × Nat =>
      let tok := sliceT t ij.1 ij.2
      if !(tok.any Char.isDigit) then none
      else if hasBookingRef (sliceT t (ij.1 - 40) (ij.2 + 40)) then none
      else some (ij.1, tok))
    (scanAll (candAt t) (t.length + 1) 0)

def blRest (t : RawText) : RawText :=
  match blTier2 t with
  | some tok => tok
  | none =>
    match blTier3Aux t with
    | some it => it.2
    | none => []

def parse_bl_number (t : RawText) : RawText :=
  match blTier1 t with
  | some g => if g.any Char.isDigit then g else blRest t
  | none => blRest t

/-! ### Container list parser (`parse_containers`) -/

/-- Container token `\b[A-Z]{4}\d{7}\b` at `i`; yields the end position. -/
def contAt (t : RawText) (i : Nat) : Option Nat :=
  if !(prevIsWord t i) && ((t.drop i).take 4).all Char.isUpper &&
      ((t.drop i).take 4).length == 4 && digitsExact t (i + 4) 7 &&
      !(isWordAt t (i + 11)) then
    some (i + 11)
  else none

def contOccs (t : RawText) : List (Nat × Nat) :=
  scanAll (contAt t) (t.length + 1) 0

def parse_containers (t : RawText) : List RawText :=
  sortedDedup ((contOccs t).map (fun ij => sliceT t ij.1 ij.2))

/-! ### Product parser (`parse_product`) -/

/-- Shape of a product span at `i` with `k` intervening characters:
`AGILITY`, then `k ≤ 120` non-newline characters, then `LDPE`
(case-insensitive). -/
def prodSpanAt (t : RawText) (i k : Nat) : Bool :=
  decide (k ≤ 120) && matchCIAt t i ("AGILITY".toList) &&
    (sliceT t (i + 7) (i + 7 + k)).all (fun c => c != '\n') &&
    matchCIAt t (i + 7 + k) ("LDPE".toList)

/-- Lazy `(AGILITY[^\n]{0,120}?LDPE)` at `i`: the smallest `k` wins. -/
def prodAt (t : RawText) (i : Nat) : Option RawText :=
  match scanFirst (fun k => if prodSpanAt t i k then some k else none) 121 0 with
  | some k => some (sliceT t i (i + 11 + k))
  | none => none

def prodSearch (t : RawText) : Option RawText :=
  scanFirst (prodAt t) (t.length + 1) 0

/-- The post-match normalisation of `parse_product`: drop `™`, strip,
collapse whitespace runs to single spaces, upper-case. -/
def prodTransform (g : RawText) : RawText :=
  (joinWords (wordsOf (stripWs (g.filter (fun c => c != '™'))))).map Char.toUpper

def parse_product (t : RawText) : RawText :=
  match prodSearch t with
  | some g => prodTransform g
  | none => []

/-! ### Net weight parser (`parse_total_net_weight`) -/

/-- Primary pattern `TOTAL\s+NET\s+WEIGHT\s*[:#]?\s*([\d\.,]+)\s*KG`
(case-insensitive) at start position `s`. -/
def tnwAt (t : RawText) (s : Nat) : Option RawText :=
  if matchCIAt t s ("TOTAL".toList) then
    let p := s + 5
    let w1 := runLen isSpaceC t p
    if w1 == 0 then none
    else if matchCIAt t (p + w1) ("NET".toList) then
      let p := p + w1 + 3
      let w2 := runLen isSpaceC t p
      if w2 == 0 then none
      else if matchCIAt t (p + w2) ("WEIGHT".toList) then
        let p := p + w2 + 6
        let p := p + runLen isSpaceC t p
        let p := if charAt t p == some ':' || charAt t p == some '#' then p + 1 else p
        let p := p + runLen isSpaceC t p
        let run := runLen (fun c => c.isDigit || c == '.' || c == ',') t p
        tryDesc (fun L =>
          if L == 0 then none
          else
            let q := p + L
            let w := runLen isSpaceC t q
            if matchCIAt t (q + w) ("KG".toList) then some (sliceT t p (p + L)) else none)
          run run
      else none
    else none
  else none

def tnwPrimarySearch (t : RawText) : Option RawText :=
  scanFirst (tnwAt t) (t.length + 1) 0

/-- Window pattern `Item\s+Net\s+Weight\s*:\s*([\d\.,]+)\s*KG`
(case-insensitive) at start position `s`. -/
def itemAt (w : RawText) (s : Nat) : Option RawText :=
  if matchCIAt w s ("Item".toList) then
    let p := s + 4
    let w1 := runLen isSpaceC w p
    if w1 == 0 then none
    else if matchCIAt w (p + w1) ("Net".toList) then
      let p := p + w1 + 3
      let w2 := runLen isSpaceC w p
      if w2 == 0 then none
      else if matchCIAt w (p + w2) ("Weight".toList) then
        let p := p + w2 + 6
        let p := p + runLen isSpaceC w p
        if charAt w p == some ':' then
          let p := p + 1
          let p := p + runLen isSpaceC w p
          let run := runLen (fun c => c.isDigit || c == '.' || c == ',') w p
          tryDesc (fun L =>
            if L == 0 then none
            else
              let q := p + L
              let ws := runLen isSpaceC w q
              if matchCIAt w (q + ws) ("KG".toList) then some (sliceT w p (p + L))
              else none)
            run run
        else none
      else none
    else none
  else none

/-- Weight parsed from one container's ±400 window: the first
`Item Net Weight:` match, if its number parses. -/
def itemWeight (w : RawText) : Option ℚ :=
  match scanFirst (itemAt w) (w.length + 1) 0 with
  | some g => parseDec (g.filter (fun c => c != ','))
  | none => none

/-- One step of the fallback aggregation loop: skip codes already seen;
on a parsed weight, add it and mark the code seen. -/
def netStep (t : RawText) (st : ℚ × List RawText) (ij : Nat × Nat) : ℚ × List RawText :=
  let code := sliceT t ij.1 ij.2
  if code ∈ st.2 then st
  else
    match itemWeight (sliceT t (ij.1 - 400) (ij.2 + 400)) with
    | some q => (qAdd st.1 q, code :: st.2)
    | none => st

def netAgg (t : RawText) : ℚ × List RawText :=
  (contOccs t).foldl (netStep t) (0, [])

def netFallbackVal (t : RawText) : RawText :=
  if 0 < (netAgg t).1 then formatFixed 3 (netAgg t).1 else []

def parse_total_net_weight (t : RawText) : RawText :=
  match tnwPrimarySearch t with
  | some g =>
    match parseDec (g.filter (fun c => c != ',')) with
    | some q => formatFixed 3 q
    | none => netFallbackVal t
  | none => netFallbackVal t

/-! ### Total amount parser (`parse_total_amount`) -/

/-- One unit word of the negative lookahead,
`\b(KG|CD3|WEIGHT|VOLUME)\b`, at `i` (case-insensitive). -/
def unitWordAt (t : RawText) (i : Nat) : Bool :=
  (matchCIAt t i ("KG".toList) && !(prevIsWord t i) && !(isWordAt t (i + 2))) ||
  (matchCIAt t i ("CD3".toList) && !(prevIsWord t i) && !(isWordAt t (i + 3))) ||
  (matchCIAt t i ("WEIGHT".toList) && !(prevIsWord t i) && !(isWordAt t (i + 6))) ||
  (matchCIAt t i ("VOLUME".toList) && !(prevIsWord t i) && !(isWordAt t (i + 6)))

/-- Lookahead body `[^\n]{0,40}\b(KG|CD3|WEIGHT|VOLUME)\b` from `j`. -/
def unitAhead (t : RawText) (j : Nat) : Bool :=
  (List.range 41).any (fun o =>
    (sliceT t j (j + o)).length == o &&
    (sliceT t j (j + o)).all (fun c => c != '\n') && unitWordAt t (j + o))

/-- Tail of the primary amount pattern from `p` (after the anchor):
`\s*Total\s+([\d\.,]{2,})\b(?![^\n]{0,40}\b(KG|CD3|WEIGHT|VOLUME)\b)`. -/
def amtAfterAnchor (t : RawText) (p : Nat) : Option RawText :=
  let p := p + runLen isSpaceC t p
  if matchCIAt t p ("Total".toList) then
    let p := p + 5
    let w := runLen isSpaceC t p
    if w == 0 then none
    else
      let p := p + w
      let run := runLen (fun c => c.isDigit || c == '.' || c == ',') t p
      tryDesc (fun L =>
        if L < 2 then none
        else if boundaryAt t (p + L) && !(unitAhead t (p + L)) then
          some (sliceT t p (p + L))
        else none)
        (run + 1 - 2) run
  else none

def amtAttempt (t : RawText) (s : Nat) : Option RawText :=
  match (if s == 0 then amtAfterAnchor t 0 else none) with
  | some r => some r
  | none => if charAt t s == some '\n' then amtAfterAnchor t (s + 1) else none

def amtPrimarySearch (t : RawText) : Option RawText :=
  scanFirst (amtAttempt t) (t.length + 1) 0

/-- Fallback pattern `Total\s+([\d\.,]{2,})` anywhere. -/
def amtFallAt (t : RawText) (s : Nat) : Option RawText :=
  if matchCIAt t s ("Total".toList) then
    let p := s + 5
    let w := runLen isSpaceC t p
    if w == 0 then none
    else
      let p := p + w
      let run := runLen (fun c => c.isDigit || c == '.' || c == ',') t p
      if 2 ≤ run then some (sliceT t p (p + run)) else none
  else none

def amtFallSearch (t : RawText) : Option RawText :=
  scanFirst (amtFallAt t) (t.length + 1) 0

def amtFallbackVal (t : RawText) : RawText :=
  match amtFallSearch t with
  | some g =>
    match parseDec (g.filter (fun c => c != ',')) with
    | some q => formatFixed 2 q
    | none => []
  | none => []

def parse_total_amount (t : RawText) : RawText :=
  match amtPrimarySearch t with
  | some g =>
    match parseDec (g.filter (fun c => c != ',')) with
    | some q => formatFixed 2 q
    | none => amtFallbackVal t
  | none => amtFallbackVal t

/-! ### Record assembly (`parse_pdf`) -/

def parse_pdf (t : RawText) : List (String × RawText) :=
  [("Customer Order Number", parse_customer_order t),
   ("Número de B/L", parse_bl_number t),
   ("Contenedores (uno por línea)", joinNL (parse_containers t)),
   ("Producto", parse_product t),
   ("Toneladas Netas (kg)", parse_total_net_weight t),
   ("Precio Final (USD)", parse_total_amount t),
   ("Número de Factura", parse_invoice_number t)]

/-! ### Specification-side predicates and concrete documents -/

/-- Claim C2's raw shape, as the claim states it: `CE-` then 4 digits,
`-`, 2 digits — an arbitrary substring, with no word-boundary
requirement. -/
def rawCEAt (t : RawText) (i : Nat) : Bool :=
  matchLit t i ("CE-".toList) && digitsExact t (i + 3) 4 &&
    charAt t (i + 7) == some '-' && digitsExact t (i + 8) 2

/-- Claim C5's span, as the claim states it: `AGILITY`, up to 120
intervening characters (any characters), then `LDPE`,
case-insensitive. -/
def specProdSpanAt (t : RawText) (i k : Nat) : Bool :=
  decide (k ≤ 120) && matchCIAt t i ("AGILITY".toList) &&
    matchCIAt t (i + 7 + k) ("LDPE".toList)

/-- Claim C8's premise, as the claim states it: a line position `p`
where `Invoice` is followed by whitespace and a (maximal) run of at
least 6 digits, case-insensitive. -/
def specInvLineAt (t : RawText) (p : Nat) : Bool :=
  (p == 0 || charAt t (p - 1) == some '\n') && matchCIAt t p ("Invoice".toList) &&
    decide (1 ≤ runLen isSpaceC t (p + 7)) &&
    decide (6 ≤ runLen Char.isDigit t (p + 7 + runLen isSpaceC t (p + 7)))

/-- No product span (in the code's sense) occurs anywhere in `t`. -/
def noProductSpan (t : RawText) : Bool :=
  (List.range (t.length + 1)).all (fun i =>
    (List.range 121).all (fun k => !(prodSpanAt t i k)))

/-- Container-code shape: 4 uppercase letters followed by 7 digits. -/
def contShape (u : RawText) : Bool :=
  u.length == 11 && (u.take 4).all Char.isUpper && (u.drop 4).all Char.isDigit

/-- The contribution trace of the net-weight fallback aggregation:
which (container code, parsed weight) pairs enter the running total,
walking the occurrence list with the already-seen codes. -/
def aggContribsFrom (t : RawText) : List RawText → List (Nat × Nat) → List (RawText × ℚ)
  | _, [] => []
  | seen, ij :: rest =>
    let code := sliceT t ij.1 ij.2
    if code ∈ seen then aggContribsFrom t seen rest
    else
      match itemWeight (sliceT t (ij.1 - 400) (ij.2 + 400)) with
      | some q => (code, q) :: aggContribsFrom t (code :: seen) rest
      | none => aggContribsFrom t seen rest

def aggContribs (t : RawText) : List (RawText × ℚ) :=
  aggContribsFrom t [] (contOccs t)

/-- Document in which the explicit-label tier of the B/L parser accepts
a booking reference (`EBKG…`). -/
def c1doc : RawText := "B/L No EBKG1234".toList

/-- Document containing the raw order-number shape without a trailing
word boundary. -/
def c2doc : RawText := "CE-1234-567".toList

/-- Document whose only product span crosses a line break. -/
def c5doc : RawText := "AGILITY\nLDPE".toList

/-- Document with a line starting `Invoice`, whitespace, and a maximal
6-digit run that is immediately followed by a letter. -/
def c8doc : RawText := "Invoice 123456A".toList

/-- Document with the same container code twice, each occurrence within
400 characters of an `Item Net Weight: 500.000 KG` label. -/
def c4doc : RawText :=
  ("ABCU1234567 Item Net Weight: 500.000 KG\n" ++
   "ABCU1234567 Item Net Weight: 500.000 KG").toList

/-- Document for C10: the candidate token appears twice inside the ±300
window of the `BILL OF LADING` anchor; only the second (matched later)
occurrence sits next to `BOOKING REF`, the first does not. -/
def c10doc : RawText :=
  ("BILL OF LADING MSCU12345678 " ++
   "zzzzzzzzzzzzzzzzzzzzzzzzzzzzzzzzzzzzzzzzzzzzzzzzzzzzzzzzzzzz" ++
   " BOOKING REF MSCU12345678").toList

def c10tok : RawText := "MSCU12345678".toList

/-! ### Generic lemmas about the scanners -/

theorem scanFirst_some_elim {f : Nat → Option α} {fuel i : Nat} {a : α}
    (h : scanFirst f fuel i = some a) :
    ∃ j, i ≤ j ∧ j < i + fuel ∧ f j = some a ∧ ∀ k, i ≤ k → k < j → f k = none := by
  induction fuel generalizing i with
  | zero => simp [scanFirst] at h
  | succ n ih =>
    rw [scanFirst] at h
    cases hf : f i with
    | some b =>
      rw [hf] at h
      refine ⟨i, Nat.le_refl i, by omega, ?_, fun k hk1 hk2 => by omega⟩
      rw [hf]; exact h
    | none =>
      rw [hf] at h
      obtain ⟨j, h1, h2, h3, h4⟩ := ih h
      refine ⟨j, by omega, by omega, h3, fun k hk1 hk2 => ?_⟩
      rcases Nat.eq_or_lt_of_le hk1 with rfl | hlt
      · exact hf
      · exact h4 k hlt hk2

theorem scanFirst_eq_some {f : Nat → Option α} {fuel i j : Nat} {a : α}
    (hij : i ≤ j) (hjf : j < i + fuel) (hj : f j = some a)
    (hmin : ∀ k, i ≤ k → k < j → f k = none) :
    scanFirst f fuel i = some a := by
  induction fuel generalizing i with
  | zero => omega
  | succ n ih =>
    rw [scanFirst]
    rcases Nat.eq_or_lt_of_le hij with rfl | hlt
    · rw [hj]
    · rw [hmin i (Nat.le_refl i) hlt]
      exact ih (by omega) (by omega) (fun k hk1 hk2 => hmin k (by omega) hk2)

theorem scanFirst_eq_none {f : Nat → Option α} {fuel i : Nat}
    (h : ∀ j, i ≤ j → j < i + fuel → f j = none) :
    scanFirst f fuel i = none := by
  induction fuel generalizing i with
  | zero => rfl
  | succ n ih =>
    rw [scanFirst, h i (Nat.le_refl i) (by omega)]
    exact ih (fun j hj1 hj2 => h j (by omega) (by omega))

theorem scanAll_mem {f : Nat → Option Nat} {fuel i : Nat} {p : Nat × Nat}
    (h : p ∈ scanAll f fuel i) : f p.1 = some p.2 := by
  induction fuel generalizing i with
  | zero => simp [scanAll] at h
  | succ n ih =>
    rw [scanAll] at h
    cases hf : f i with
    | some j =>
      rw [hf] at h
      rcases List.mem_cons.mp h with rfl | hm
      · exact hf
      · exact ih hm
    | none =>
      rw [hf] at h
      exact ih h

theorem tryDesc_some_elim {f : Nat → Option α} {fuel L : Nat} {a : α}
    (h : tryDesc f fuel L = some a) : ∃ m, m ≤ L ∧ f m = some a := by
  induction fuel generalizing L with
  | zero => simp [tryDesc] at h
  | succ n ih =>
    rw [tryDesc] at h
    cases hf : f L with
    | some b =>
      rw [hf] at h
      exact ⟨L, Nat.le_refl L, by rw [hf]; exact h⟩
    | none =>
      rw [hf] at h
      obtain ⟨m, hm1, hm2⟩ := ih h
      exact ⟨m, by omega, hm2⟩

theorem firstSomeList_some_elim {f : α → Option β} {l : List α} {b : β}
    (h : firstSomeList f l = some b) : ∃ a ∈ l, f a = some b := by
  induction l with
  | nil => simp [firstSomeList] at h
  | cons x xs ih =>
    rw [firstSomeList] at h
    cases hf : f x with
    | some c =>
      rw [hf] at h
      exact ⟨x, List.mem_cons_self x xs, by rw [hf]; exact h⟩
    | none =>
      rw [hf] at h
      obtain ⟨a, ha1, ha2⟩ := ih h
      exact ⟨a, List.mem_cons_of_mem x ha1, ha2⟩

theorem chooseLongest_aux_mem {l : List RawText} {acc : Option RawText} {x : RawText}
    (h : l.foldl (fun best c =>
      match best with
      | none => some c
      | some b => if b.length < c.length then some c else some b) acc = some x) :
    x ∈ l ∨ acc = some x := by
  induction l generalizing acc with
  | nil => exact Or.inr h
  | cons y ys ih =>
    rw [List.foldl_cons] at h
    rcases ih h with hm | hacc
    · exact Or.inl (List.mem_cons_of_mem y hm)
    · cases acc with
      | none =>
        simp at hacc
        exact Or.inl (hacc ▸ List.mem_cons_self y ys)
      | some b =>
        by_cases hb : b.length < y.length
        · simp [hb] at hacc
          exact Or.inl (hacc ▸ List.mem_cons_self y ys)
        · simp [hb] at hacc
          exact Or.inr (by rw [hacc])

theorem chooseLongest_mem {l : List RawText} {x : RawText}
    (h : chooseLongest l = some x) : x ∈ l := by
  rcases chooseLongest_aux_mem h with hm | hacc
  · exact hm
  · cases hacc

/-! ### Lemmas about literal matching, runs and slices -/

theorem litFrom_iff {u pat : RawText} :
    litFrom u pat = true ↔ u.take pat.length = pat ∧ pat.length ≤ u.length := by
  induction pat generalizing u with
  | nil => simp [litFrom]
  | cons p ps ih =>
    cases u with
    | nil => simp [litFrom]
    | cons c cs =>
      simp [litFrom, ih, List.take_succ_cons, Nat.succ_le_succ_iff, and_assoc,
        and_comm, and_left_comm]

theorem matchLit_lt_length {t : RawText} {i : Nat} {c : Char} {ps : RawText}
    (h : matchLit t i (c :: ps) = true) : i < t.length := by
  unfold matchLit at h
  cases hd : t.drop i with
  | nil => rw [hd] at h; simp [litFrom] at h
  | cons d ds =>
    by_contra hge
    rw [List.drop_eq_nil_of_le (by omega)] at hd
    cases hd

theorem matchCIAt_lt_length {t : RawText} {i : Nat} {c : Char} {ps : RawText}
    (h : matchCIAt t i (c :: ps) = true) : i < t.length := by
  unfold matchCIAt at h
  cases hd : t.drop i with
  | nil => rw [hd] at h; simp [ciFrom] at h
  | cons d ds =>
    by_contra hge
    rw [List.drop_eq_nil_of_le (by omega)] at hd
    cases hd

theorem sliceT_eq_drop_take (t : RawText) (i k : Nat) :
    sliceT t i (i + k) = (t.drop i).take k := by
  simp [sliceT]

theorem runLen_le (p : Char → Bool) (t : RawText) (i : Nat) :
    runLen p t i ≤ t.length - i := by
  unfold runLen
  calc ((t.drop i).takeWhile p).length ≤ (t.drop i).length :=
        List.Sublist.length_le (List.takeWhile_sublist p)
    _ = t.length - i := List.length_drop i t

theorem mem_takeWhile_pred {α : Type} {p : α → Bool} {l : List α} {x : α}
    (h : x ∈ l.takeWhile p) : p x = true := by
  induction l with
  | nil => simp [List.takeWhile] at h
  | cons c cs ih =>
    rw [List.takeWhile_cons] at h
    by_cases hc : p c
    · rw [if_pos hc] at h
      rcases List.mem_cons.mp h with rfl | hm
      · exact hc
      · exact ih hm
    · rw [if_neg hc] at h
      cases h

theorem takeWhile_of_all {α : Type} {p : α → Bool} {l : List α}
    (h : ∀ x ∈ l, p x = true) : l.takeWhile p = l := by
  induction l with
  | nil => rfl
  | cons c cs ih =>
    rw [List.takeWhile_cons, if_pos (h c (List.mem_cons_self c cs))]
    rw [ih (fun x hx => h x (List.mem_cons_of_mem c hx))]

/-! ### Lemmas about the sorted deduplication -/

theorem charToNat_inj {c d : Char} (h : c.toNat = d.toNat) : c = d :=
  Char.ext (UInt32.ext h)

theorem ltb_irrefl (a : RawText) : ltb a a = false := by
  induction a with
  | nil => rfl
  | cons c cs ih =>
    unfold ltb
    rw [if_neg (by omega), if_neg (by omega)]
    exact ih

theorem ltT_trans {a b c : RawText} (h1 : ltT a b) (h2 : ltT b c) : ltT a c := by
  unfold ltT at h1 h2 ⊢
  induction a generalizing b c with
  | nil =>
    cases b with
    | nil => cases h1
    | cons bh bt =>
      cases c with
      | nil => cases h2
      | cons ch ct => rfl
  | cons ah at' ih =>
    cases b with
    | nil => cases h1
    | cons bh bt =>
      cases c with
      | nil => cases h2
      | cons ch ct =>
        unfold ltb at h1 h2 ⊢
        by_cases hab : ah.toNat < bh.toNat
        · rw [if_pos hab] at h1
          by_cases hbc : bh.toNat < ch.toNat
          · rw [if_pos (by omega)]
          · rw [if_neg hbc] at h2
            by_cases hcb : ch.toNat < bh.toNat
            · rw [if_pos hcb] at h2; cases h2
            · rw [if_pos (by omega)]
        · rw [if_neg hab] at h1
          by_cases hba : bh.toNat < ah.toNat
          · rw [if_pos hba] at h1; cases h1
          · rw [if_neg hba] at h1
            by_cases hbc : bh.toNat < ch.toNat
            · rw [if_pos (by omega)]
            · rw [if_neg hbc] at h2
              by_cases hcb : ch.toNat < bh.toNat
              · rw [if_pos hcb] at h2; cases h2
              · rw [if_neg hcb] at h2
                rw [if_neg (by omega), if_neg (by omega)]
                exact ih h1 h2

theorem ltT_of_not {x y : RawText} (h1 : ¬ ltT x y) (h2 : ¬ x = y) : ltT y x := by
  unfold ltT at h1 ⊢
  induction x generalizing y with
  | nil =>
    cases y with
    | nil => exact absurd rfl h2
    | cons yh yt => exact absurd rfl h1
  | cons xh xt ih =>
    cases y with
    | nil => rfl
    | cons yh yt =>
      unfold ltb at h1 ⊢
      by_cases hxy : xh.toNat < yh.toNat
      · rw [if_pos hxy] at h1
        exact absurd rfl h1
      · by_cases hyx : yh.toNat < xh.toNat
        · rw [if_pos hyx]
        · rw [if_neg hyx, if_neg (by omega)]
          rw [if_neg hxy, if_neg hyx] at h1
          have hch : xh = yh := charToNat_inj (by omega)
          subst hch
          apply ih h1
          intro he
          exact h2 (by rw [he])

theorem ltT_ne {a b : RawText} (h : ltT a b) : a ≠ b := by
  intro he
  unfold ltT at h
  rw [he, ltb_irrefl] at h
  cases h

theorem mem_insSorted {x z : RawText} {l : List RawText} :
    z ∈ insSorted x l ↔ z = x ∨ z ∈ l := by
  induction l with
  | nil => simp [insSorted]
  | cons y ys ih =>
    rw [insSorted]
    by_cases h1 : ltT x y
    · simp [h1]
    · by_cases h2 : x = y
      · subst h2
        rw [if_neg h1, if_pos (rfl : x = x)]
        simp only [List.mem_cons]
        tauto
      · simp only [if_neg h1, if_neg h2, List.mem_cons, ih]
        tauto

theorem pairwise_insSorted {x : RawText} {l : List RawText}
    (h : l.Pairwise ltT) : (insSorted x l).Pairwise ltT := by
  induction l with
  | nil => simp [insSorted]
  | cons y ys ih =>
    rw [insSorted]
    rw [List.pairwise_cons] at h
    by_cases h1 : ltT x y
    · rw [if_pos h1, List.pairwise_cons]
      refine ⟨?_, List.pairwise_cons.mpr h⟩
      intro z hz
      rcases List.mem_cons.mp hz with rfl | hm
      · exact h1
      · exact ltT_trans h1 (h.1 z hm)
    · rw [if_neg h1]
      by_cases h2 : x = y
      · rw [if_pos h2, List.pairwise_cons]
        exact h
      · rw [if_neg h2, List.pairwise_cons]
        refine ⟨?_, ih h.2⟩
        intro z hz
        rcases mem_insSorted.mp hz with rfl | hm
        · exact ltT_of_not h1 h2
        · exact h.1 z hm

theorem pairwise_sortedDedup (l : List RawText) : (sortedDedup l).Pairwise ltT := by
  induction l with
  | nil => simp [sortedDedup]
  | cons x xs ih => exact pairwise_insSorted ih

theorem mem_sortedDedup {z : RawText} {l : List RawText} :
    z ∈ sortedDedup l ↔ z ∈ l := by
  induction l with
  | nil => simp [sortedDedup]
  | cons x xs ih =>
    show z ∈ insSorted x (sortedDedup xs) ↔ _
    rw [mem_insSorted, ih, List.mem_cons]

theorem nodup_sortedDedup (l : List RawText) : (sortedDedup l).Nodup :=
  (pairwise_sortedDedup l).imp (fun h => ltT_ne h)

/-! ### Lemmas about line joining and splitting -/

theorem splitNL_no_newline {x : RawText} (h : ∀ c ∈ x, ¬ c = '\n') :
    splitNL x = [x] := by
  induction x with
  | nil => rfl
  | cons c rest ih =>
    rw [splitNL, if_neg (h c (List.mem_cons_self c rest))]
    rw [ih (fun d hd => h d (List.mem_cons_of_mem c hd))]

theorem splitNL_append {x u : RawText} (h : ∀ c ∈ x, ¬ c = '\n') :
    splitNL (x ++ '\n' :: u) = x :: splitNL u := by
  induction x with
  | nil =>
    show splitNL ('\n' :: u) = [] :: splitNL u
    rw [splitNL, if_pos rfl]
  | cons c x' ih =>
    show splitNL (c :: (x' ++ '\n' :: u)) = (c :: x') :: splitNL u
    rw [splitNL, if_neg (h c (List.mem_cons_self c x'))]
    rw [ih (fun d hd => h d (List.mem_cons_of_mem c hd))]

theorem splitNL_joinNL {l : List RawText} (hne : l ≠ [])
    (h : ∀ x ∈ l, ∀ c ∈ x, ¬ c = '\n') : splitNL (joinNL l) = l := by
  induction l with
  | nil => exact absurd rfl hne
  | cons x xs ih =>
    cases xs with
    | nil =>
      show splitNL (joinNL [x]) = [x]
      rw [joinNL]
      exact splitNL_no_newline (h x (List.mem_cons_self x []))
    | cons y ys =>
      show splitNL (x ++ '\n' :: joinNL (y :: ys)) = x :: y :: ys
      rw [splitNL_append (h x (List.mem_cons_self x (y :: ys)))]
      rw [ih (by simp) (fun z hz => h z (List.mem_cons_of_mem x hz))]

/-! ### Lemmas about the net-weight fallback aggregation -/

theorem qAdd_eq (a b : ℚ) : qAdd a b = a + b := by
  unfold qAdd
  rw [Rat.mkRat_eq_div]
  have ha : ((a.den : ℕ) : ℚ) ≠ 0 := Nat.cast_ne_zero.mpr a.den_nz
  have hb : ((b.den : ℕ) : ℚ) ≠ 0 := Nat.cast_ne_zero.mpr b.den_nz
  conv_rhs => rw [← Rat.num_div_den a, ← Rat.num_div_den b]
  rw [div_add_div _ _ ha hb]
  congr 1
  · push_cast
    ring
  · push_cast
    ring

theorem aggContribsFrom_nil (t : RawText) (seen : List RawText) :
    aggContribsFrom t seen [] = [] := rfl

theorem aggContribsFrom_cons (t : RawText) (seen : List RawText) (ij : Nat × Nat)
    (rest : List (Nat × Nat)) :
    aggContribsFrom t seen (ij :: rest) =
      (if sliceT t ij.1 ij.2 ∈ seen then aggContribsFrom t seen rest
       else
        match itemWeight (sliceT t (ij.1 - 400) (ij.2 + 400)) with
        | some q =>
          (sliceT t ij.1 ij.2, q) :: aggContribsFrom t (sliceT t ij.1 ij.2 :: seen) rest
        | none => aggContribsFrom t seen rest) := rfl

set_option maxRecDepth 4000 in
theorem netStep_eq (t : RawText) (total : ℚ) (seen : List RawText) (ij : Nat × Nat) :
    netStep t (total, seen) ij =
      (if sliceT t ij.1 ij.2 ∈ seen then (total, seen)
       else
        match itemWeight (sliceT t (ij.1 - 400) (ij.2 + 400)) with
        | some q => (qAdd total q, sliceT t ij.1 ij.2 :: seen)
        | none => (total, seen)) := by
  unfold netStep
  rfl

theorem netAgg_fold_total (t : RawText) (occs : List (Nat × Nat)) :
    ∀ seen total, (occs.foldl (netStep t) (total, seen)).1 =
      total + ((aggContribsFrom t seen occs).map Prod.snd).sum := by
  induction occs with
  | nil => intro seen total; simp [aggContribsFrom_nil]
  | cons ij rest ih =>
    intro seen total
    rw [List.foldl_cons, aggContribsFrom_cons, netStep_eq]
    by_cases hmem : sliceT t ij.1 ij.2 ∈ seen
    · rw [if_pos hmem, if_pos hmem]
      exact ih seen total
    · rw [if_neg hmem, if_neg hmem]
      cases hw : itemWeight (sliceT t (ij.1 - 400) (ij.2 + 400)) with
      | some q =>
        rw [ih (sliceT t ij.1 ij.2 :: seen) (qAdd total q)]
        rw [qAdd_eq]
        simp [add_assoc]
      | none => exact ih seen total

theorem aggContribs_fresh (t : RawText) (occs : List (Nat × Nat)) :
    ∀ seen, ((aggContribsFrom t seen occs).map Prod.fst).Nodup ∧
      ∀ c ∈ (aggContribsFrom t seen occs).map Prod.fst, c ∉ seen := by
  induction occs with
  | nil => intro seen; simp [aggContribsFrom_nil]
  | cons ij rest ih =>
    intro seen
    rw [aggContribsFrom_cons]
    by_cases hmem : sliceT t ij.1 ij.2 ∈ seen
    · rw [if_pos hmem]
      exact ih seen
    · rw [if_neg hmem]
      cases hw : itemWeight (sliceT t (ij.1 - 400) (ij.2 + 400)) with
      | some q =>
        obtain ⟨hnd, hfresh⟩ := ih (sliceT t ij.1 ij.2 :: seen)
        rw [List.map_cons]
        constructor
        · rw [List.nodup_cons]
          refine ⟨?_, hnd⟩
          intro hin
          exact (hfresh _ hin) (List.mem_cons_self _ _)
        · intro c hc
          rcases List.mem_cons.mp hc with rfl | hm
          · exact hmem
          · intro hcs
            exact (hfresh c hm) (List.mem_cons_of_mem _ hcs)
      | none => exact ih seen

/-! ### Soundness of the token matchers -/

theorem candAt_sound {w : RawText} {i j : Nat} (h : candAt w i = some j) :
    matchLit w i ("EBKG".toList) = false ∧ i + 6 ≤ j ∧ j ≤ w.length := by
  unfold candAt at h
  by_cases h1 : prevIsWord w i
  · rw [if_pos h1] at h; cases h
  rw [if_neg h1] at h
  by_cases h2 : matchLit w i ("EBKG".toList) = true
  · rw [if_pos h2] at h; cases h
  rw [if_neg h2] at h
  refine ⟨Bool.eq_false_iff.mpr h2, ?_⟩
  obtain ⟨l, hl, hfl⟩ := tryDesc_some_elim h
  obtain ⟨a, ha, hfa⟩ := tryDesc_some_elim hfl
  by_cases hc : (decide (6 ≤ a) && !(isWordAt w (i + l + a))) = true
  · rw [if_pos hc] at hfa
    rw [Bool.and_eq_true] at hc
    obtain ⟨h6, _⟩ := hc
    have h6' : 6 ≤ a := of_decide_eq_true h6
    have hrun : a ≤ w.length - (i + l) := by
      have := runLen_le (fun c => c.isUpper || c.isDigit) w (i + l)
      omega
    have hj : i + l + a = j := by injection hfa
    omega
  · rw [if_neg hc] at hfa; cases hfa

theorem cand_token_not_ebkg {w : RawText} {i j : Nat} (h : candAt w i = some j) :
    ¬ (sliceT w i j).take 4 = ("EBKG".toList) := by
  obtain ⟨hne, hij, hjw⟩ := candAt_sound h
  intro heq
  have h4 : (sliceT w i j).take 4 = (w.drop i).take 4 := by
    unfold sliceT
    rw [List.take_take]
    congr 1
    omega
  have hlen : 4 ≤ (w.drop i).length := by
    rw [List.length_drop]
    omega
  have hlit : litFrom (w.drop i) ("EBKG".toList) = true := by
    rw [litFrom_iff]
    constructor
    · show (w.drop i).take (("EBKG".toList).length) = "EBKG".toList
      have hL : ("EBKG".toList).length = 4 := by decide
      rw [hL, ← h4, heq]
    · show ("EBKG".toList).length ≤ (w.drop i).length
      have hL : ("EBKG".toList).length = 4 := by decide
      omega
  rw [matchLit] at hne
  rw [hlit] at hne
  cases hne

theorem contAt_sound {t : RawText} {i j : Nat} (h : contAt t i = some j) :
    j = i + 11 ∧ contShape (sliceT t i j) = true := by
  unfold contAt at h
  by_cases hc : (!(prevIsWord t i) && ((t.drop i).take 4).all Char.isUpper &&
      ((t.drop i).take 4).length == 4 && digitsExact t (i + 4) 7 &&
      !(isWordAt t (i + 11))) = true
  · rw [if_pos hc] at h
    have hj : j = i + 11 := by injection h; omega
    subst hj
    simp only [Bool.and_eq_true] at hc
    obtain ⟨⟨⟨⟨_, hup⟩, hlen4⟩, hdig⟩, _⟩ := hc
    unfold digitsExact at hdig
    rw [Bool.and_eq_true] at hdig
    obtain ⟨hdigall, hdiglen⟩ := hdig
    have hlen4' : ((t.drop i).take 4).length = 4 := by
      simpa using hlen4
    have hdiglen' : ((t.drop (i + 4)).take 7).length = 7 := by
      simpa using hdiglen
    have hl4 : 4 ≤ t.length - i := by
      rw [List.length_take, List.length_drop] at hlen4'
      omega
    have hl7 : 7 ≤ t.length - (i + 4) := by
      rw [List.length_take, List.length_drop] at hdiglen'
      omega
    unfold contShape
    have e1 : sliceT t i (i + 11) = (t.drop i).take 11 := sliceT_eq_drop_take t i 11
    rw [e1]
    have etake : ((t.drop i).take 11).take 4 = (t.drop i).take 4 := by
      rw [List.take_take]
      congr 1
    have edrop : ((t.drop i).take 11).drop 4 = (t.drop (i + 4)).take 7 := by
      rw [List.drop_take]
      rw [List.drop_drop]
    rw [etake, edrop]
    have elen : ((t.drop i).take 11).length = 11 := by
      rw [List.length_take, List.length_drop]
      omega
    simp [elen, hup, hdigall]
  · rw [if_neg hc] at h; cases h

theorem custAt_sound {t : RawText} {s : Nat} {v : RawText} (h : custAt t s = some v) :
    (∃ p, v = (t.drop p).takeWhile isOrdClass) ∧ ¬ v = [] := by
  simp only [custAt] at h
  repeat' split at h
  all_goals try exact Option.noConfusion h
  all_goals
    rename_i hne
    injection h with h'
    refine ⟨⟨_, h'.symm⟩, ?_⟩
    intro hnil
    apply hne
    rw [h', hnil]
    rfl

theorem custSearch_val (t : RawText) {val : RawText} (h : custSearch t = some val) :
    val.takeWhile isOrdClass = val ∧ ¬ val = [] := by
  obtain ⟨j, _, _, hj, _⟩ := scanFirst_some_elim h
  obtain ⟨⟨p, hp⟩, hne⟩ := custAt_sound hj
  refine ⟨?_, hne⟩
  apply takeWhile_of_all
  intro x hx
  exact mem_takeWhile_pred (hp ▸ hx)

theorem parse_customer_orderE_total (t : RawText) :
    parse_customer_orderE t = some (parse_customer_order t) := by
  unfold parse_customer_orderE parse_customer_order
  cases hce : ceSearch t with
  | some v => rfl
  | none =>
    cases hcu : custSearch t with
    | none => rfl
    | some val =>
      cases hce2 : ceSearch val with
      | some v2 => simp [hce2]
      | none =>
        obtain ⟨htw, hne⟩ := custSearch_val t hcu
        have hemp : val.isEmpty = false := by
          cases val with
          | nil => exact absurd rfl hne
          | cons c cs => rfl
        simp [hce2, htw, hemp]

/-! ### Position bounds for the searched patterns -/

theorem charAt_lt {t : RawText} {s : Nat} {c : Char} (h : charAt t s = some c) :
    s < t.length := by
  unfold charAt at h
  rw [List.get?_eq_some] at h
  obtain ⟨hl, _⟩ := h
  exact hl

theorem ceAt_lt_length {t : RawText} {i : Nat} (h : ceAt t i = true) : i < t.length := by
  unfold ceAt at h
  simp only [Bool.and_eq_true] at h
  exact matchLit_lt_length h.1.1.1.1.2

/-- C2 (corrected): if the bounded shape `\bCE-\d{4}-\d{2}\b` matches at
`i` and nowhere earlier, the order-number parser returns exactly that
ten-character substring.  (The word boundaries are required: see the
counterexample.) -/
theorem c2_order_first_bounded_match (t : RawText) (i : Nat) (h : ceAt t i = true)
    (hmin : ∀ k, k < i → ceAt t k = false) :
    parse_customer_order t = sliceT t i (i + 10) := by
  have hb : i < 0 + (t.length + 1) := by
    have := ceAt_lt_length h
    omega
  have hsearch : ceSearch t = some (sliceT t i (i + 10)) := by
    unfold ceSearch
    apply scanFirst_eq_some (Nat.zero_le i) hb
    · rw [if_pos h]
    · intro k _ hk
      have hne : ¬ ceAt t k = true := by
        rw [hmin k hk]
        simp
      rw [if_neg hne]
  unfold parse_customer_order
  rw [hsearch]

/-- C2 witness: on a document that is exactly the canonical shape, the
parser returns it verbatim. -/
theorem c2_order_first_bounded_match_witness :
    parse_customer_order ("CE-1234-56".toList) = "CE-1234-56".toList := by
  rw [c2_order_first_bounded_match ("CE-1234-56".toList) 0 (by decide)
    (fun k hk => absurd hk (Nat.not_lt_zero k))]
  decide

/-- C2 counterexample: `CE-1234-567` contains the raw claim shape at
position 0, but the parser returns the empty value because the shape is
not followed by a word boundary. -/
theorem c2_order_counterexample :
    rawCEAt c2doc 0 = true ∧ parse_customer_order c2doc = [] ∧
      ¬ sliceT c2doc 0 10 = [] :=
  ⟨by decide, by decide, by decide⟩

theorem invAttempt_le {t : RawText} {s : Nat} {r : RawText}
    (h : invAttempt t s = some r) : s ≤ t.length := by
  rcases Nat.eq_zero_or_pos s with rfl | hpos
  · exact Nat.zero_le _
  · unfold invAttempt at h
    have h0 : ¬ (s == 0) = true := by simp; omega
    rw [if_neg h0] at h
    have h' : (if (charAt t s == some '\n') = true then invAfterAnchor t (s + 1)
        else none) = some r := h
    by_cases hch : (charAt t s == some '\n') = true
    · have hc : charAt t s = some '\n' := by simpa using hch
      exact Nat.le_of_lt (charAt_lt hc)
    · rw [if_neg hch] at h'
      exact Option.noConfusion h'

/-- C8 (corrected): the invoice parser returns the digit run of the
first position at which the strict line-anchored pattern
`(?:^|\n)\s*Invoice\s+(\d{6,})\b` matches (the trailing word boundary
is required: see the counterexample); in particular a document that is
exactly `Invoice 000123456` yields `000123456`. -/
theorem c8_invoice_first_match_amended :
    (∀ (t : RawText) (s : Nat) (r : RawText), invAttempt t s = some r →
      (∀ k, k < s → invAttempt t k = none) → parse_invoice_number t = r) ∧
    parse_invoice_number ("Invoice 000123456".toList) = "000123456".toList := by
  constructor
  · intro t s r h hmin
    have hb : s < 0 + (t.length + 1) := by
      have := invAttempt_le h
      omega
    have hstrict : invoiceStrict t = some r := by
      unfold invoiceStrict
      exact scanFirst_eq_some (Nat.zero_le s) hb h (fun k _ hk => hmin k hk)
    unfold parse_invoice_number
    rw [hstrict]
  · decide

/-- C8 witness: the first-match rule applied to the concrete document
`Invoice 000123456`. -/
theorem c8_invoice_first_match_witness :
    parse_invoice_number ("x\nInvoice 000777777 y".toList) = "000777777".toList := by
  apply c8_invoice_first_match_amended.1 ("x\nInvoice 000777777 y".toList) 1
    ("000777777".toList) (by decide)
  decide

/-- C8 counterexample: `Invoice 123456A` is a line beginning with
`Invoice`, whitespace and a (maximal) run of six digits, yet the parser
returns the empty value because the run is followed by a letter (the
`\b` of the pattern fails). -/
theorem c8_invoice_counterexample :
    specInvLineAt c8doc 0 = true ∧
      sliceT c8doc 8 (8 + runLen Char.isDigit c8doc 8) = "123456".toList ∧
      parse_invoice_number c8doc = [] :=
  ⟨by decide, by decide, by decide⟩

/-! ### Product-span machinery (C5, C6) -/

theorem prodSpanAt_le_120 {t : RawText} {i k : Nat} (h : prodSpanAt t i k = true) :
    k ≤ 120 := by
  unfold prodSpanAt at h
  simp only [Bool.and_eq_true] at h
  exact of_decide_eq_true h.1.1.1

theorem prodSpanAt_lt_length {t : RawText} {i k : Nat} (h : prodSpanAt t i k = true) :
    i < t.length := by
  unfold prodSpanAt at h
  simp only [Bool.and_eq_true] at h
  exact matchCIAt_lt_length h.1.1.2

theorem prodSpanAt_false_of_gt {t : RawText} {i k : Nat} (h : 120 < k) :
    prodSpanAt t i k = false := by
  unfold prodSpanAt
  rw [decide_eq_false (by omega)]
  simp

theorem prodAt_some_of {t : RawText} {i k : Nat} (h : prodSpanAt t i k = true)
    (hmink : ∀ m, m < k → prodSpanAt t i m = false) :
    prodAt t i = some (sliceT t i (i + 11 + k)) := by
  unfold prodAt
  have hk : k ≤ 120 := prodSpanAt_le_120 h
  have hscan : scanFirst (fun m => if prodSpanAt t i m then some m else none) 121 0 =
      some k := by
    apply scanFirst_eq_some (Nat.zero_le k) (by omega)
    · rw [if_pos h]
    · intro m _ hm
      have hne : ¬ prodSpanAt t i m = true := by
        rw [hmink m hm]
        simp
      rw [if_neg hne]
  rw [hscan]

theorem prodAt_none_of {t : RawText} {i : Nat}
    (h : ∀ m, prodSpanAt t i m = false) : prodAt t i = none := by
  unfold prodAt
  have hscan : scanFirst (fun m => if prodSpanAt t i m then some m else none) 121 0 =
      none := by
    apply scanFirst_eq_none
    intro m _ _
    have hne : ¬ prodSpanAt t i m = true := by
      rw [h m]
      simp
    rw [if_neg hne]
  rw [hscan]

/-- C5 (corrected): if a product span — `AGILITY`, at most 120
intervening non-newline characters, then `LDPE`, case-insensitively —
occurs at `i` with `k` intervening characters, `i` is the leftmost
position carrying a span and `k` the smallest gap there, then the
parser returns exactly that span, trademark-stripped,
whitespace-collapsed and upper-cased.  (The no-newline restriction on
the intervening text is required: see the counterexample.) -/
theorem c5_product_span_amended (t : RawText) (i k : Nat)
    (h : prodSpanAt t i k = true)
    (hminI : ∀ j, j < i → ∀ m, prodSpanAt t j m = false)
    (hminK : ∀ m, m < k → prodSpanAt t i m = false) :
    parse_product t = prodTransform (sliceT t i (i + 11 + k)) := by
  have hb : i < 0 + (t.length + 1) := by
    have := prodSpanAt_lt_length h
    omega
  have hsearch : prodSearch t = some (sliceT t i (i + 11 + k)) := by
    unfold prodSearch
    apply scanFirst_eq_some (Nat.zero_le i) hb (prodAt_some_of h hminK)
    intro j _ hj
    exact prodAt_none_of (fun m => hminI j hj m)
  unfold parse_product
  rw [hsearch]

/-- C5 witness: the amended rule evaluated on `AGILITY X LDPE`. -/
theorem c5_product_span_amended_witness :
    parse_product ("AGILITY X LDPE".toList) = "AGILITY X LDPE".toList := by
  rw [c5_product_span_amended ("AGILITY X LDPE".toList) 0 3 (by decide)
    (fun j hj m => absurd hj (Nat.not_lt_zero j)) (by decide)]
  decide

/-- C5 counterexample: `AGILITY\nLDPE` contains a span in the claim's
sense (one intervening character), but the parser returns the empty
value because the intervening character is a newline, which the
source pattern `[^\n]{0,120}?` refuses. -/
theorem c5_product_counterexample :
    specProdSpanAt c5doc 0 1 = true ∧ parse_product c5doc = [] :=
  ⟨by decide, by decide⟩

theorem parse_product_empty_of_noSpan {t : RawText} (h : noProductSpan t = true) :
    parse_product t = [] := by
  have hsearch : prodSearch t = none := by
    unfold prodSearch
    apply scanFirst_eq_none
    intro j _ hj
    apply prodAt_none_of
    intro m
    by_cases hm : m ≤ 120
    · by_cases hjl : j < t.length
      · unfold noProductSpan at h
        rw [List.all_eq_true] at h
        have h1 := h j (List.mem_range.mpr (by omega))
        rw [List.all_eq_true] at h1
        have h2 := h1 m (List.mem_range.mpr (by omega))
        simpa using h2
      · by_cases hsp : prodSpanAt t j m = true
        · exact absurd (prodSpanAt_lt_length hsp) hjl
        · exact Bool.eq_false_iff.mpr hsp
    · exact prodSpanAt_false_of_gt (by omega)
  unfold parse_product
  rw [hsearch]

/-- C6 (confirmed): the assembled record always has exactly the seven
canonical keys in the fixed order, and when no product span is present
the product field is the empty string while all seven keys remain. -/
theorem c6_record_seven_keys (t : RawText) :
    (parse_pdf t).map Prod.fst =
      ["Customer Order Number", "Número de B/L", "Contenedores (uno por línea)",
       "Producto", "Toneladas Netas (kg)", "Precio Final (USD)",
       "Número de Factura"] ∧
    (noProductSpan t = true → (parse_pdf t).get? 3 = some ("Producto", [])) := by
  constructor
  · rfl
  · intro h
    show some ("Producto", parse_product t) = some ("Producto", [])
    rw [parse_product_empty_of_noSpan h]

/-- C6 witness: a document with no recognizable product phrase still
yields the full record, with an empty product field. -/
theorem c6_record_seven_keys_witness :
    (parse_pdf ("hola mundo".toList)).get? 3 = some ("Producto", []) :=
  (c6_record_seven_keys ("hola mundo".toList)).2 (by decide)

/-- C7 (corrected): every element of the container list has the
4-letters + 7-digits shape, the list is strictly ascending in the
Python string order with no duplicates, and — whenever at least one
container code was found — splitting the newline-joined output
recovers exactly that list.  (The nonemptiness proviso is required:
with no codes the output is the empty string, which splits into a
single empty element; see the counterexample.) -/
theorem c7_containers_sorted_amended (t : RawText) :
    (∀ x ∈ parse_containers t, contShape x = true) ∧
    (parse_containers t).Pairwise ltT ∧ (parse_containers t).Nodup ∧
    (¬ parse_containers t = [] →
      splitNL (joinNL (parse_containers t)) = parse_containers t) := by
  have hshape : ∀ x ∈ parse_containers t, contShape x = true := by
    intro x hx
    unfold parse_containers at hx
    rw [mem_sortedDedup, List.mem_map] at hx
    obtain ⟨ij, hij, rfl⟩ := hx
    exact (contAt_sound (scanAll_mem hij)).2
  refine ⟨hshape, pairwise_sortedDedup _, nodup_sortedDedup _, ?_⟩
  intro hne
  apply splitNL_joinNL hne
  intro x hx c hc hnl
  have hs := hshape x hx
  unfold contShape at hs
  simp only [Bool.and_eq_true] at hs
  obtain ⟨⟨_, hup⟩, hdig⟩ := hs
  rw [← List.take_append_drop 4 x, List.mem_append] at hc
  rcases hc with h4 | h7
  · have := List.all_eq_true.mp hup c h4
    rw [hnl] at this
    exact absurd this (by decide)
  · have := List.all_eq_true.mp hdig c h7
    rw [hnl] at this
    exact absurd this (by decide)

/-- C7 witness: with repeated codes in the input, the joined output
splits back into the deduplicated sorted list. -/
theorem c7_containers_sorted_amended_witness :
    splitNL (joinNL (parse_containers
        ("ZULU9999999 ABCU1234567 ABCU1234567".toList))) =
      parse_containers ("ZULU9999999 ABCU1234567 ABCU1234567".toList) :=
  (c7_containers_sorted_amended _).2.2.2 (by decide)

/-- C7 counterexample: a document with no container codes yields the
empty output, which splits into a single empty element — and the empty
string does not have the container shape, contradicting the claim's
"each element matches the shape" for such documents. -/
theorem c7_containers_counterexample :
    splitNL (joinNL (parse_containers ("no container codes".toList))) = [[]] ∧
      contShape [] = false :=
  ⟨by decide, by decide⟩

/-! ### B/L parser guarantees (C1, C10) -/

theorem blWindowPick_sound {w : RawText} {tok : RawText}
    (h : blWindowPick w = some tok) :
    ¬ tok.take 4 = ("EBKG".toList) ∧ tok.any Char.isDigit = true := by
  simp only [blWindowPick] at h
  have hmem := chooseLongest_mem h
  rw [List.mem_filter] at hmem
  obtain ⟨hmem2, _⟩ := hmem
  rw [List.mem_filter] at hmem2
  obtain ⟨hmem3, hdig⟩ := hmem2
  rw [List.mem_map] at hmem3
  obtain ⟨ij, hij, htok⟩ := hmem3
  subst htok
  exact ⟨cand_token_not_ebkg (scanAll_mem hij), hdig⟩

theorem blTier2_sound {t : RawText} {tok : RawText} (h : blTier2 t = some tok) :
    ¬ tok.take 4 = ("EBKG".toList) ∧ tok.any Char.isDigit = true := by
  obtain ⟨kw, _, h1⟩ := firstSomeList_some_elim h
  obtain ⟨se, _, h2⟩ := firstSomeList_some_elim h1
  exact blWindowPick_sound h2

theorem blTier3_sound {t : RawText} {i : Nat} {tok : RawText}
    (h : blTier3Aux t = some (i, tok)) :
    ¬ tok.take 4 = ("EBKG".toList) ∧ tok.any Char.isDigit = true ∧
      hasBookingRef (sliceT t (i - 40) (i + tok.length + 40)) = false := by
  obtain ⟨ij, hij, hf⟩ := firstSomeList_some_elim h
  have hc := scanAll_mem hij
  obtain ⟨hne, hij6, hjlen⟩ := candAt_sound hc
  by_cases h1 : (!((sliceT t ij.1 ij.2).any Char.isDigit)) = true
  · rw [if_pos h1] at hf
    exact Option.noConfusion hf
  rw [if_neg h1] at hf
  by_cases h2 : hasBookingRef (sliceT t (ij.1 - 40) (ij.2 + 40)) = true
  · rw [if_pos h2] at hf
    exact Option.noConfusion hf
  rw [if_neg h2] at hf
  injection hf with hf'
  rw [Prod.ext_iff] at hf'
  obtain ⟨hi, htok⟩ := hf'
  simp only at hi htok
  subst hi
  subst htok
  have hlen : (sliceT t ij.1 ij.2).length = ij.2 - ij.1 := by
    unfold sliceT
    rw [List.length_take, List.length_drop]
    exact min_eq_left (by omega)
  refine ⟨cand_token_not_ebkg hc, by simpa using h1, ?_⟩
  have heq : ij.1 + (sliceT t ij.1 ij.2).length + 40 = ij.2 + 40 := by
    rw [hlen]
    omega
  rw [heq]
  exact Bool.eq_false_iff.mpr h2

/-- C1 (corrected): the keyword-proximity tier and the global-fallback
tier never return an `EBKG`-prefixed token, always return a token with
a digit, and the global tier's returned occurrence never has
`BOOKING REF` within ±40 characters; the explicit-label tier, however,
applies neither exclusion (see the counterexample). -/
theorem c1_bl_guards_amended (t : RawText) (i : Nat) (tok : RawText) :
    (blTier2 t = some tok →
      ¬ tok.take 4 = ("EBKG".toList) ∧ tok.any Char.isDigit = true) ∧
    (blTier3Aux t = some (i, tok) →
      ¬ tok.take 4 = ("EBKG".toList) ∧ tok.any Char.isDigit = true ∧
        hasBookingRef (sliceT t (i - 40) (i + tok.length + 40)) = false) :=
  ⟨fun h => blTier2_sound h, fun h => blTier3_sound h⟩

/-- C1 witness: the tier-2 guarantee evaluated inside a
`BILL OF LADING` window, and the tier-3 guarantee on a document whose
only token is found by the global fallback. -/
theorem c1_bl_guards_amended_witness :
    (¬ ("ABCD123456".toList : RawText).take 4 = ("EBKG".toList)) ∧
      ("ABC123456".toList : RawText).any Char.isDigit = true := by
  constructor
  · exact ((c1_bl_guards_amended ("BILL OF LADING ABCD123456 x".toList) 0
      ("ABCD123456".toList)).1 (by decide)).1
  · exact (((c1_bl_guards_amended ("zz ABC123456".toList) 3
      ("ABC123456".toList)).2 (by decide)).2).1

/-- C1 counterexample: on `B/L No EBKG1234` the explicit-label tier
returns the booking reference itself — a non-empty value beginning with
`EBKG`. -/
theorem c1_bl_guard_counterexample :
    parse_bl_number c1doc = "EBKG1234".toList ∧
      (parse_bl_number c1doc).take 4 = "EBKG".toList ∧
      ¬ parse_bl_number c1doc = [] :=
  ⟨by decide, by decide, by decide⟩

/-- C3 (confirmed): the unit-exclusion strategy rejects
`Total 18500.00 KG` as a monetary total — its line-anchored primary
pattern does not match at all, and in a document that also contains a
clean total the parser skips the `KG` line — while the plain line
`Total 18500.00` is accepted and formatted to two fractional digits. -/
theorem c3_total_amount_unit_exclusion :
    amtPrimarySearch ("Total 18500.00 KG".toList) = none ∧
      parse_total_amount ("Total 18500.00".toList) = "18500.00".toList ∧
      parse_total_amount ("Total 18500.00 KG\nTotal 99.99".toList) =
        "99.99".toList :=
  ⟨by decide, by decide, by decide⟩

/-- C4 (confirmed): the net-weight fallback total is exactly the sum of
its contribution trace, whose container codes are pairwise distinct —
each distinct code string is counted at most once however often it
occurs — and on the concrete two-occurrence document the parser reports
`500.000`, not `1000.000`. -/
theorem c4_net_weight_dedup_invariant :
    (∀ t : RawText, (netAgg t).1 = ((aggContribs t).map Prod.snd).sum ∧
      ((aggContribs t).map Prod.fst).Nodup) ∧
    parse_total_net_weight c4doc = "500.000".toList := by
  refine ⟨fun t => ⟨?_, (aggContribs_fresh t (contOccs t) []).1⟩, by decide⟩
  unfold netAgg aggContribs
  rw [netAgg_fold_total t (contOccs t) [] 0]
  exact zero_add _

/-- C10 (confirmed): in the keyword-proximity tier the `BOOKING REF`
neighbourhood test is evaluated around the first occurrence of the
candidate string in the window; on `c10doc` the token occurs at 15 and
at 101, only the occurrence at 101 has `BOOKING REF` within ±40
characters, and the parser still returns the token. -/
theorem c10_bl_first_occurrence_proximity :
    parse_bl_number c10doc = c10tok ∧
      matchLit c10doc 15 c10tok = true ∧ matchLit c10doc 101 c10tok = true ∧
      hasBookingRef (sliceT c10doc (101 - 40) (101 + c10tok.length + 40)) = true ∧
      hasBookingRef (sliceT c10doc (15 - 40) (15 + c10tok.length + 40)) = false :=
  ⟨by decide, by decide, by decide, by decide, by decide⟩

/-- C9 (confirmed): the unchecked `re.match(...).group(0)` inside the
order-number fallback can never raise (its fallible model always
returns a value, equal to the total parser's result), the assembled
record's values are exactly the seven parsers' outputs — field failures
surface only as empty strings — and a matched number that fails to
parse as a decimal yields the empty value for that field alone. -/
theorem c9_parsers_total_safety :
    (∀ t : RawText, parse_customer_orderE t = some (parse_customer_order t) ∧
      (parse_pdf t).map Prod.snd =
        [parse_customer_order t, parse_bl_number t, joinNL (parse_containers t),
         parse_product t, parse_total_net_weight t, parse_total_amount t,
         parse_invoice_number t]) ∧
    parse_total_amount ("Total 1.2.3".toList) = [] ∧
    parse_total_net_weight ("TOTAL NET WEIGHT 1..2 KG".toList) = [] :=
  ⟨fun t => ⟨parse_customer_orderE_total t, rfl⟩, by decide, by decide⟩
